import Mathlib

/-
Shallow embedding of `src/skfuzzy/control/visualization.py`
(class `FuzzyVariableVisualizer`, methods `__init__`, `view`, `_init_plot`).

Numbers are modelled as rationals.  A fuzzy variable carries its universe,
its ordered term set (insertion order, as iterated by `terms.items()`),
and the optional `input` / `output` attributes probed by `hasattr` in
`view` (outer `Option` = attribute present, inner `Option` = the crisp
value for the simulation, which may itself be Python `None`).

The visualizer's mutable state (`self.plots`, a dict keyed by term label,
plus matplotlib's colour cycle, modelled by a counter handing out one
colour index per `ax.plot` call) is threaded explicitly.
-/

namespace SkFuzzy

structure Term where
  label : String
  mf : List ℚ
deriving DecidableEq

structure FuzzyVar where
  label : String
  univ : List ℚ
  terms : List Term
  inputAttr : Option (Option ℚ)
  outputAttr : Option (Option ℚ)
deriving DecidableEq

/-- One `ax.plot` call made by `_init_plot`: a display-curve descriptor. -/
structure PlotDesc where
  label : String
  points : List (ℚ × ℚ)
  lw : Nat
  color : Nat
deriving DecidableEq

/-- One `ax.fill_between` call made by `view`: a filled-region descriptor. -/
structure FillDesc where
  label : String
  xs : List ℚ
  lower : List ℚ
  upper : List ℚ
  color : Nat
deriving DecidableEq

/-- The `ax.plot([crisp_value]*2, [0, y], ...)` call: the crisp-value marker. -/
structure MarkerDesc where
  x : ℚ
  yTop : ℚ
deriving DecidableEq

structure OverlayResult where
  curves : List PlotDesc
  fills : List FillDesc
  marker : Option MarkerDesc
deriving DecidableEq

/-- Visualizer state across calls: `self.plots` (a Python dict, modelled as
an association list in insertion order) and the axes' colour cycle. -/
structure VisState where
  plots : List (String × PlotDesc)
  nextColor : Nat
deriving DecidableEq

/-- Python dict lookup `d[k]` / `k in d` on an association list:
first entry with the given key. -/
def dictGet {α : Type} (k : String) : List (String × α) → Option α
  | [] => none
  | (k', v) :: ps => if k' = k then some v else dictGet k ps

/-- Python dict assignment `d[k] = v`: overwrite in place if the key exists
(keeping its position), else append. -/
def dictInsert (k : String) (v : PlotDesc) : List (String × PlotDesc) → List (String × PlotDesc)
  | [] => [(k, v)]
  | (k', v') :: ps => if k' = k then (k, v) :: ps else (k', v') :: dictInsert k v ps

/-- Successive `self.plots[key] = ...` assignments of `_init_plot`. -/
def insertAll (ps : List (String × PlotDesc)) (es : List PlotDesc) : List (String × PlotDesc) :=
  es.foldl (fun acc e => dictInsert e.label e acc) ps

/-- `np.zeros_like(universe)`. -/
def zerosLike (u : List ℚ) : List ℚ := u.map (fun _ => 0)

/-- The `ax.plot` loop body of `_init_plot`: for each term, in insertion
order, one display-curve descriptor; line width 3 iff the term is the
highlighted one (`self.term == key`); each plot call takes the next colour
of the cycle. -/
def mkPlots (u : List ℚ) (hl : Option String) : Nat → List Term → List PlotDesc
  | _, [] => []
  | c, t :: ts =>
      { label := t.label
        points := u.zip t.mf
        lw := if hl = some t.label then 3 else 1
        color := c } :: mkPlots u hl (c + 1) ts

/-- `_init_plot`: emit one display curve per term and store each into
`self.plots` under its label.  Returns the updated state and the emitted
descriptors (the formatting-only axis calls are not modelled). -/
def initPlot (v : FuzzyVar) (hl : Option String) (s : VisState) : VisState × List PlotDesc :=
  let emitted := mkPlots v.univ hl s.nextColor v.terms
  (⟨insertAll s.plots emitted, s.nextColor + v.terms.length⟩, emitted)

/-- The fill loop of `view`: `for label, mf_plot in self.plots.items():
if label in cut_mfs: fill_between(universe, zeros, cut_mfs[label],
facecolor=mf_plot colour)`. -/
def mkFills (u : List ℚ) (cut : List (String × List ℚ)) :
    List (String × PlotDesc) → List FillDesc
  | [] => []
  | (l, pd) :: ps =>
      match dictGet l cut with
      | some cutmf =>
          { label := l, xs := u, lower := zerosLike u, upper := cutmf,
            color := pd.color } :: mkFills u cut ps
      | none => mkFills u cut ps

/-- The crisp-value lookup of `view`: `if hasattr(self.fuzzy_var, 'input'):
crisp_value = self.fuzzy_var.input[sim] elif hasattr(self.fuzzy_var,
'output'): crisp_value = self.fuzzy_var.output[sim]` (else it stays `None`). -/
def crispLookup (v : FuzzyVar) : Option ℚ :=
  match v.inputAttr with
  | some val => val
  | none =>
      match v.outputAttr with
      | some val => val
      | none => none

/-- Modelled from the spec: the external interpolation collaborator
`interp_membership` (`skfuzzy.fuzzymath.fuzzy_ops`, outside this
subsystem's source) — standard piecewise-linear interpolation of the curve
at `x0`, with extrapolation clamped to the nearest endpoint.  Helper:
interpolate over the remaining points, `x1 ≤ x0` holding for the last
point already passed. -/
def interpFrom (x0 : ℚ) : ℚ → ℚ → List (ℚ × ℚ) → ℚ
  | _, y1, [] => y1
  | x1, y1, (x2, y2) :: rest =>
      if x0 ≤ x2 then y1 + (y2 - y1) * (x0 - x1) / (x2 - x1)
      else interpFrom x0 x2 y2 rest

/-- Modelled from the spec: `interpolate(universe, curve, x0)` —
piecewise-linear interpolation with endpoint clamping. -/
def interp (xs ys : List ℚ) (x0 : ℚ) : ℚ :=
  match xs.zip ys with
  | [] => 0
  | (x1, y1) :: rest => if x0 ≤ x1 then y1 else interpFrom x0 x1 y1 rest

/-- `view`: after `_init_plot`, plot the fills for every stored display
curve whose label has a cut, then, when the cut mapping is non-empty and
the aggregate output curve is not identically zero, look up the crisp
value by role and emit the marker with the visibility floor
(`if y < 0.1: y = 1.`).  `out` and `cut` are the two components returned
by the external `CrispValueCalculator.find_memberships()`. -/
def view (v : FuzzyVar) (hl : Option String) (s : VisState)
    (out : List ℚ) (cut : List (String × List ℚ)) : VisState × OverlayResult :=
  let s' := (initPlot v hl s).1
  let emitted := (initPlot v hl s).2
  let fills := mkFills v.univ cut s'.plots
  let marker :=
    if cut ≠ [] ∧ out.all (fun y => y == 0) = false then
      match crispLookup v with
      | some cv =>
          let y := interp v.univ out cv
          some { x := cv, yTop := if y < 1/10 then 1 else y }
      | none => none
    else none
  (s', { curves := emitted, fills := fills, marker := marker })

/-- A display-curve descriptor without its line width (the emphasis hint). -/
def stripLw (p : PlotDesc) : String × List (ℚ × ℚ) × Nat := (p.label, p.points, p.color)

/-- The derived (geometric) content of a display-curve descriptor:
everything except its colour identity. -/
def curveGeom (p : PlotDesc) : String × List (ℚ × ℚ) × Nat := (p.label, p.points, p.lw)

/-- The derived content of a fill descriptor: everything except colour. -/
def fillGeom (f : FillDesc) : String × List ℚ × List ℚ × List ℚ := (f.label, f.xs, f.lower, f.upper)

/-- The keys of a dict after re-assigning a run of keys in order:
existing keys keep their position, new keys are appended. -/
def keysAfterInsert (ks : List String) : List String → List String
  | [] => ks
  | l :: ls => keysAfterInsert (if l ∈ ks then ks else ks ++ [l]) ls

/-- The geometric fill content determined by the plot keys alone. -/
def keysFillGeom (u : List ℚ) (cut : List (String × List ℚ)) :
    List String → List (String × List ℚ × List ℚ × List ℚ)
  | [] => []
  | l :: ls =>
      match dictGet l cut with
      | some cm => (l, u, zerosLike u, cm) :: keysFillGeom u cut ls
      | none => keysFillGeom u cut ls

lemma mkPlots_length (u : List ℚ) (hl : Option String) (c : Nat) (ts : List Term) :
    (mkPlots u hl c ts).length = ts.length := by
  induction ts generalizing c with
  | nil => rfl
  | cons t ts ih => simp [mkPlots, ih]

lemma mkPlots_getElem (u : List ℚ) (hl : Option String) (c : Nat) (ts : List Term) (i : Nat) :
    (mkPlots u hl c ts)[i]? = (ts[i]?).map (fun t =>
      { label := t.label, points := u.zip t.mf,
        lw := if hl = some t.label then 3 else 1, color := c + i }) := by
  induction ts generalizing c i with
  | nil => simp [mkPlots]
  | cons t ts ih =>
      cases i with
      | zero => simp [mkPlots]
      | succ j =>
          simp only [mkPlots, List.getElem?_cons_succ, ih]
          cases h : ts[j]? <;> simp [h, Nat.add_assoc, Nat.add_comm 1 j]

lemma mkPlots_map_label (u : List ℚ) (hl : Option String) (c : Nat) (ts : List Term) :
    (mkPlots u hl c ts).map (fun p => p.label) = ts.map (fun t => t.label) := by
  induction ts generalizing c with
  | nil => rfl
  | cons t ts ih => simp [mkPlots, ih]

lemma mkPlots_map_stripLw (u : List ℚ) (hl₁ hl₂ : Option String) (c : Nat) (ts : List Term) :
    (mkPlots u hl₁ c ts).map stripLw = (mkPlots u hl₂ c ts).map stripLw := by
  induction ts generalizing c with
  | nil => rfl
  | cons t ts ih => simp [mkPlots, stripLw, ih]

lemma mkPlots_map_curveGeom (u : List ℚ) (hl : Option String) (c₁ c₂ : Nat) (ts : List Term) :
    (mkPlots u hl c₁ ts).map curveGeom = (mkPlots u hl c₂ ts).map curveGeom := by
  induction ts generalizing c₁ c₂ with
  | nil => rfl
  | cons t ts ih => simp [mkPlots, curveGeom, ih (c₁ + 1) (c₂ + 1)]

lemma mkFills_nil_cut (u : List ℚ) (ps : List (String × PlotDesc)) :
    mkFills u [] ps = [] := by
  induction ps with
  | nil => rfl
  | cons p ps ih => cases p; simp [mkFills, dictGet, ih]

lemma mkFills_map_label (u : List ℚ) (cut : List (String × List ℚ))
    (ps : List (String × PlotDesc)) :
    (mkFills u cut ps).map (fun f => f.label) =
      (ps.map Prod.fst).filter (fun l => (dictGet l cut).isSome) := by
  induction ps with
  | nil => rfl
  | cons p ps ih =>
      obtain ⟨l, pd⟩ := p
      simp only [mkFills, List.map_cons, List.filter_cons]
      cases h : dictGet l cut <;> simp [h, ih]

lemma mkFills_map_fillGeom (u : List ℚ) (cut : List (String × List ℚ))
    (ps : List (String × PlotDesc)) :
    (mkFills u cut ps).map fillGeom = keysFillGeom u cut (ps.map Prod.fst) := by
  induction ps with
  | nil => rfl
  | cons p ps ih =>
      obtain ⟨l, pd⟩ := p
      simp only [mkFills, List.map_cons, keysFillGeom]
      cases h : dictGet l cut <;> simp [fillGeom, h, ih]

lemma mem_mkFills (u : List ℚ) (cut : List (String × List ℚ))
    (ps : List (String × PlotDesc)) (f : FillDesc) (hf : f ∈ mkFills u cut ps) :
    ∃ p ∈ ps, f.label = p.1 ∧ f.color = p.2.color ∧ f.xs = u ∧
      f.lower = zerosLike u ∧ dictGet p.1 cut = some f.upper := by
  induction ps with
  | nil => simp [mkFills] at hf
  | cons p ps ih =>
      obtain ⟨l, pd⟩ := p
      simp only [mkFills] at hf
      cases h : dictGet l cut with
      | none =>
          rw [h] at hf
          obtain ⟨q, hq, hprop⟩ := ih hf
          exact ⟨q, List.mem_cons_of_mem _ hq, hprop⟩
      | some cm =>
          rw [h] at hf
          rcases List.mem_cons.mp hf with heq | hmem
          · subst heq
            exact ⟨(l, pd), List.mem_cons_self _ _, rfl, rfl, rfl, rfl, h⟩
          · obtain ⟨q, hq, hprop⟩ := ih hmem
            exact ⟨q, List.mem_cons_of_mem _ hq, hprop⟩

lemma dictInsert_keys (k : String) (v : PlotDesc) (ps : List (String × PlotDesc)) :
    (dictInsert k v ps).map Prod.fst =
      if k ∈ ps.map Prod.fst then ps.map Prod.fst else ps.map Prod.fst ++ [k] := by
  induction ps with
  | nil => simp [dictInsert]
  | cons p ps ih =>
      obtain ⟨k', v'⟩ := p
      by_cases hk : k' = k
      · subst hk; simp [dictInsert]
      · simp only [dictInsert, if_neg hk, List.map_cons]
        by_cases hmem : k ∈ ps.map Prod.fst
        · rw [ih, if_pos hmem, if_pos (List.mem_cons_of_mem _ hmem)]
        · have hnot : k ∉ k' :: ps.map Prod.fst := by
            intro hc
            rcases List.mem_cons.mp hc with h1 | h2
            · exact hk h1.symm
            · exact hmem h2
          rw [ih, if_neg hmem, if_neg hnot, List.cons_append]

lemma mem_dictInsert (k : String) (v : PlotDesc) (ps : List (String × PlotDesc))
    (l : String) (pd : PlotDesc) (h : (l, pd) ∈ dictInsert k v ps) :
    (l, pd) = (k, v) ∨ (l, pd) ∈ ps := by
  induction ps with
  | nil => simpa [dictInsert] using h
  | cons p ps ih =>
      obtain ⟨k', v'⟩ := p
      simp only [dictInsert] at h
      by_cases hk : k' = k
      · rw [if_pos hk] at h
        rcases List.mem_cons.mp h with heq | hmem
        · exact Or.inl heq
        · exact Or.inr (List.mem_cons_of_mem _ hmem)
      · rw [if_neg hk] at h
        rcases List.mem_cons.mp h with heq | hmem
        · exact Or.inr (List.mem_cons.mpr (Or.inl heq))
        · rcases ih hmem with h1 | h2
          · exact Or.inl h1
          · exact Or.inr (List.mem_cons_of_mem _ h2)

lemma insertAll_cons (ps : List (String × PlotDesc)) (e : PlotDesc) (es : List PlotDesc) :
    insertAll ps (e :: es) = insertAll (dictInsert e.label e ps) es := rfl

lemma mem_insertAll (ps : List (String × PlotDesc)) (es : List PlotDesc)
    (l : String) (pd : PlotDesc) (h : (l, pd) ∈ insertAll ps es) :
    (l, pd) ∈ ps ∨ (pd ∈ es ∧ pd.label = l) := by
  induction es generalizing ps with
  | nil => exact Or.inl h
  | cons e es ih =>
      rw [insertAll_cons] at h
      rcases ih _ h with hmem | ⟨hin, hlab⟩
      · rcases mem_dictInsert _ _ _ _ _ hmem with heq | hps
        · rw [Prod.mk.injEq] at heq
          obtain ⟨h1, h2⟩ := heq
          subst h2
          exact Or.inr ⟨List.mem_cons_self _ _, h1.symm⟩
        · exact Or.inl hps
      · exact Or.inr ⟨List.mem_cons_of_mem _ hin, hlab⟩

lemma insertAll_keys (ps : List (String × PlotDesc)) (es : List PlotDesc) :
    (insertAll ps es).map Prod.fst =
      keysAfterInsert (ps.map Prod.fst) (es.map (fun e => e.label)) := by
  induction es generalizing ps with
  | nil => rfl
  | cons e es ih =>
      rw [insertAll_cons, ih]
      simp only [List.map_cons, keysAfterInsert, dictInsert_keys]

lemma subset_keysAfterInsert (ks : List String) (ls : List String) :
    ks ⊆ keysAfterInsert ks ls := by
  induction ls generalizing ks with
  | nil => exact fun _ h => h
  | cons l ls ih =>
      intro x hx
      simp only [keysAfterInsert]
      refine ih _ ?_
      by_cases hl : l ∈ ks <;> simp [hl, hx]

lemma mem_keysAfterInsert (ks : List String) (ls : List String) (l : String) (hl : l ∈ ls) :
    l ∈ keysAfterInsert ks ls := by
  induction ls generalizing ks with
  | nil => simp at hl
  | cons a as ih =>
      rcases List.mem_cons.mp hl with heq | hmem
      · subst heq
        simp only [keysAfterInsert]
        refine subset_keysAfterInsert _ _ ?_
        by_cases ha : l ∈ ks
        · rw [if_pos ha]; exact ha
        · rw [if_neg ha]; exact List.mem_append_right _ (List.mem_singleton.mpr rfl)
      · simp only [keysAfterInsert]
        exact ih _ hmem

lemma keysAfterInsert_of_subset (ks : List String) (ls : List String) (h : ls ⊆ ks) :
    keysAfterInsert ks ls = ks := by
  induction ls with
  | nil => rfl
  | cons l ls ih =>
      have hl : l ∈ ks := h (List.mem_cons_self _ _)
      simp only [keysAfterInsert, if_pos hl]
      exact ih (fun x hx => h (List.mem_cons_of_mem _ hx))

lemma keysAfterInsert_idem (ks : List String) (ls : List String) :
    keysAfterInsert (keysAfterInsert ks ls) ls = keysAfterInsert ks ls :=
  keysAfterInsert_of_subset _ _ (fun _ hx => mem_keysAfterInsert ks ls _ hx)

/-- C1 (counterexample): with a cut entry for term `A` and an all-zero
aggregate output curve, `view` still produces a fill for `A` — the claim
that an all-zero aggregate yields no fill descriptors is false: the
all-zero check guards only the marker, not the fill loop. -/
theorem C1_counterexample :
    ((view ⟨"v", [0, 1], [⟨"A", [0, 1]⟩], none, none⟩ none ⟨[], 0⟩ [0, 0]
        [("A", [0, 0])]).2.fills.map (fun f => f.label) = ["A"]) ∧
    (view ⟨"v", [0, 1], [⟨"A", [0, 1]⟩], none, none⟩ none ⟨[], 0⟩ [0, 0]
        [("A", [0, 0])]).2.marker = none := by
  constructor <;> rfl

/-- C1 (amended): if the cut mapping is empty, `view` produces no fills
and no marker; an all-zero aggregate output curve suppresses only the
marker (fills for cut entries with known labels are still produced). -/
theorem C1_empty_cut_no_overlay (v : FuzzyVar) (hl : Option String) (s : VisState)
    (out : List ℚ) (cut : List (String × List ℚ)) :
    (cut = [] →
      (view v hl s out cut).2.fills = [] ∧ (view v hl s out cut).2.marker = none)
    ∧ (out.all (fun y => y == 0) = true → (view v hl s out cut).2.marker = none) := by
  constructor
  · intro hcut
    subst hcut
    exact ⟨by simp [view, mkFills_nil_cut], by simp [view]⟩
  · intro hout
    simp [view, hout]

/-- C1 (witness): the amended theorem applied at a concrete variable with
an empty cut mapping. -/
theorem C1_empty_cut_no_overlay_witness :
    (view ⟨"v", [0, 1], [⟨"A", [0, 1]⟩], none, none⟩ none ⟨[], 0⟩ [0, 0] []).2.fills = [] ∧
    (view ⟨"v", [0, 1], [⟨"A", [0, 1]⟩], none, none⟩ none ⟨[], 0⟩ [0, 0] []).2.marker = none :=
  (C1_empty_cut_no_overlay ⟨"v", [0, 1], [⟨"A", [0, 1]⟩], none, none⟩ none ⟨[], 0⟩
    [0, 0] []).1 rfl

/-- C2 (counterexample): a cut mapping containing the unknown label `Z`
(not a display-curve label) does not abort the call: the fill for the
valid label `A` is still produced, refuting the all-or-nothing
`ConsistencyError` claim — the fill loop silently skips unknown labels. -/
theorem C2_counterexample :
    ((view ⟨"v", [0, 1], [⟨"A", [0, 1]⟩], none, none⟩ none ⟨[], 0⟩ [0, 1]
        [("Z", [1, 1]), ("A", [0, 1])]).2.fills.map (fun f => f.label)) = ["A"] := by
  rfl

/-- C2 (amended): cut entries with unknown labels are silently ignored —
no error is raised and the fills are exactly those for the stored
display-curve labels that appear in the cut mapping, in display order. -/
theorem C2_unknown_labels_ignored (v : FuzzyVar) (hl : Option String) (s : VisState)
    (out : List ℚ) (cut : List (String × List ℚ)) :
    (view v hl s out cut).2.fills.map (fun f => f.label) =
      ((view v hl s out cut).1.plots.map Prod.fst).filter
        (fun l => (dictGet l cut).isSome) := by
  simp [view, initPlot, mkFills_map_label]

/-- C3 (counterexample): a variable whose term set carries the duplicate
label `A` twice is rendered without any failure — `_init_plot` has no
duplicate check and emits both descriptors (duplicated label), refuting
the `ConfigurationError` claim. -/
theorem C3_counterexample :
    (initPlot ⟨"v", [0, 1], [⟨"A", [0, 0]⟩, ⟨"A", [1, 1]⟩], none, none⟩ none
      ⟨[], 0⟩).2.map (fun p => p.label) = ["A", "A"] := by
  rfl

/-- C3 (amended): `_init_plot` performs no duplicate-label check and never
fails; it emits the labels exactly as they appear in the term set, so when
the variable's term labels are unique, each emitted label is unique. -/
theorem C3_labels_as_terms (v : FuzzyVar) (hl : Option String) (s : VisState) :
    ((initPlot v hl s).2.map (fun p => p.label) = v.terms.map (fun t => t.label))
    ∧ ((v.terms.map (fun t => t.label)).Nodup →
        ((initPlot v hl s).2.map (fun p => p.label)).Nodup) := by
  refine ⟨by simp [initPlot, mkPlots_map_label], ?_⟩
  intro h
  simpa [initPlot, mkPlots_map_label] using h

/-- C3 (witness): the amended theorem applied at a concrete two-term
variable with distinct labels. -/
theorem C3_labels_as_terms_witness :
    ((initPlot ⟨"v", [0, 1], [⟨"A", [0, 0]⟩, ⟨"B", [1, 1]⟩], none, none⟩ none
      ⟨[], 0⟩).2.map (fun p => p.label)).Nodup :=
  (C3_labels_as_terms ⟨"v", [0, 1], [⟨"A", [0, 0]⟩, ⟨"B", [1, 1]⟩], none, none⟩ none
    ⟨[], 0⟩).2 (by decide)

/-- C4: when a marker is produced (non-empty cut mapping, aggregate curve
not all-zero, crisp value available), its x-position is the crisp value
and its y-span is [0, 1] exactly when the interpolated height is below the
visibility floor 0.1, and [0, y] with y unchanged when y ≥ 0.1. -/
theorem C4_visibility_floor (v : FuzzyVar) (hl : Option String) (s : VisState)
    (out : List ℚ) (cut : List (String × List ℚ)) (cv : ℚ)
    (hcut : cut ≠ []) (hout : out.all (fun y => y == 0) = false)
    (hcv : crispLookup v = some cv) :
    ((view v hl s out cut).2.marker =
      some ⟨cv, if interp v.univ out cv < 1/10 then 1 else interp v.univ out cv⟩)
    ∧ (interp v.univ out cv < 1/10 →
        (view v hl s out cut).2.marker = some ⟨cv, 1⟩)
    ∧ (1/10 ≤ interp v.univ out cv →
        (view v hl s out cut).2.marker = some ⟨cv, interp v.univ out cv⟩) := by
  have hmain : (view v hl s out cut).2.marker =
      some ⟨cv, if interp v.univ out cv < 1/10 then 1 else interp v.univ out cv⟩ := by
    simp [view, hcut, hout, hcv]
  refine ⟨hmain, fun hlt => ?_, fun hge => ?_⟩
  · rw [hmain, if_pos hlt]
  · rw [hmain, if_neg (not_lt.mpr hge)]

/-- C4 (witness): the spec's two concrete cases — aggregate curve
`[0,0,0.05,0.05,0]` at crisp value `2.5` interpolates to `0.05 < 0.1`, so
the marker height is floored to `1`; curve `[0,0,0.3,0.3,0]` interpolates
to `0.3 ≥ 0.1` and is kept unchanged. -/
theorem C4_visibility_floor_witness :
    ((view ⟨"v", [0, 1, 2, 3, 4], [⟨"A", [0, 0, 1, 1, 0]⟩], some (some (5/2)), none⟩
        none ⟨[], 0⟩ [0, 0, 1/20, 1/20, 0]
        [("A", [0, 0, 1/20, 1/20, 0])]).2.marker = some ⟨5/2, 1⟩)
    ∧ ((view ⟨"v", [0, 1, 2, 3, 4], [⟨"A", [0, 0, 1, 1, 0]⟩], some (some (5/2)), none⟩
        none ⟨[], 0⟩ [0, 0, 3/10, 3/10, 0]
        [("A", [0, 0, 3/10, 3/10, 0])]).2.marker = some ⟨5/2, 3/10⟩) := by
  constructor
  · exact (C4_visibility_floor
      ⟨"v", [0, 1, 2, 3, 4], [⟨"A", [0, 0, 1, 1, 0]⟩], some (some (5/2)), none⟩
      none ⟨[], 0⟩ [0, 0, 1/20, 1/20, 0] [("A", [0, 0, 1/20, 1/20, 0])] (5/2)
      (by simp) (by norm_num [List.all_cons]) rfl).2.1
      (by norm_num [interp, interpFrom, List.zip_cons_cons])
  · have h := (C4_visibility_floor
      ⟨"v", [0, 1, 2, 3, 4], [⟨"A", [0, 0, 1, 1, 0]⟩], some (some (5/2)), none⟩
      none ⟨[], 0⟩ [0, 0, 3/10, 3/10, 0] [("A", [0, 0, 3/10, 3/10, 0])] (5/2)
      (by simp) (by norm_num [List.all_cons]) rfl).2.2
      (by norm_num [interp, interpFrom, List.zip_cons_cons])
    rw [h]
    norm_num [interp, interpFrom, List.zip_cons_cons]

/-- C5: `_init_plot` emits exactly one display-curve descriptor per term,
in insertion order, with points the pairing of the universe with the
term's membership curve; a descriptor is bold (line width 3) iff its label
is the highlighted one, and the highlight changes nothing else. -/
theorem C5_display_curves (v : FuzzyVar) (hl : Option String) (s : VisState) :
    ((initPlot v hl s).2.length = v.terms.length)
    ∧ (∀ (i : Nat) (t : Term), v.terms[i]? = some t →
        ∃ pd : PlotDesc, (initPlot v hl s).2[i]? = some pd ∧ pd.label = t.label ∧
          pd.points = v.univ.zip t.mf ∧ (pd.lw = 3 ↔ hl = some t.label))
    ∧ (∀ hl₂, (initPlot v hl s).2.map stripLw = (initPlot v hl₂ s).2.map stripLw) := by
  refine ⟨by simp [initPlot, mkPlots_length], ?_, ?_⟩
  · intro i t ht
    refine ⟨⟨t.label, v.univ.zip t.mf, if hl = some t.label then 3 else 1,
      s.nextColor + i⟩, ?_, rfl, rfl, ?_⟩
    · simp [initPlot, mkPlots_getElem, ht]
    · by_cases hh : hl = some t.label
      · rw [if_pos hh]; simp [hh]
      · rw [if_neg hh]; simp [hh]
  · exact fun hl₂ => mkPlots_map_stripLw v.univ hl hl₂ s.nextColor v.terms

/-- C5 (witness): a concrete two-term variable with highlight on `B`: the
second emitted descriptor carries label `B`, the zipped points and bold
width. -/
theorem C5_display_curves_witness :
    ∃ pd : PlotDesc, (initPlot ⟨"v", [0, 1], [⟨"A", [0, 0]⟩, ⟨"B", [1, 1]⟩], none, none⟩
        (some "B") ⟨[], 0⟩).2[1]? = some pd ∧ pd.label = "B" ∧
      pd.points = ([0, 1] : List ℚ).zip [1, 1] ∧ (pd.lw = 3 ↔ some "B" = some "B") :=
  (C5_display_curves ⟨"v", [0, 1], [⟨"A", [0, 0]⟩, ⟨"B", [1, 1]⟩], none, none⟩
    (some "B") ⟨[], 0⟩).2.1 1 ⟨"B", [1, 1]⟩ rfl

/-- C6: when no crisp value is supplied directly, it is looked up by role:
a variable with the `input` attribute yields its input value, one with
only the `output` attribute yields its output value, and one with neither
yields no crisp value and hence no marker, with no error. -/
theorem C6_role_lookup (v : FuzzyVar) (hl : Option String) (s : VisState)
    (out : List ℚ) (cut : List (String × List ℚ)) :
    (∀ val, v.inputAttr = some val → crispLookup v = val)
    ∧ (∀ val, v.inputAttr = none → v.outputAttr = some val → crispLookup v = val)
    ∧ (v.inputAttr = none → v.outputAttr = none →
        crispLookup v = none ∧ (view v hl s out cut).2.marker = none) := by
  refine ⟨?_, ?_, ?_⟩
  · intro val h
    simp [crispLookup, h]
  · intro val h1 h2
    simp [crispLookup, h1, h2]
  · intro h1 h2
    have hc : crispLookup v = none := by simp [crispLookup, h1, h2]
    refine ⟨hc, ?_⟩
    simp [view, hc]

/-- C6 (witness): a concrete variable with neither role attribute yields
no crisp value and no marker even with a non-trivial cut and aggregate. -/
theorem C6_role_lookup_witness :
    crispLookup ⟨"v", [0, 1], [⟨"A", [0, 1]⟩], none, none⟩ = none ∧
    (view ⟨"v", [0, 1], [⟨"A", [0, 1]⟩], none, none⟩ none ⟨[], 0⟩ [0, 1]
      [("A", [0, 1])]).2.marker = none :=
  (C6_role_lookup ⟨"v", [0, 1], [⟨"A", [0, 1]⟩], none, none⟩ none ⟨[], 0⟩ [0, 1]
    [("A", [0, 1])]).2.2 rfl rfl

lemma view_marker_eq (v : FuzzyVar) (hl : Option String) (s : VisState)
    (out : List ℚ) (cut : List (String × List ℚ)) (cv : ℚ)
    (hcut : cut ≠ []) (hout : out.all (fun y => y == 0) = false)
    (hcv : crispLookup v = some cv) :
    (view v hl s out cut).2.marker =
      some ⟨cv, if interp v.univ out cv < 1/10 then 1 else interp v.univ out cv⟩ := by
  simp [view, hcut, hout, hcv]

/-- C7 (counterexample): a cut mapping containing only the unknown label
`Z` yields no fills, yet the marker is still emitted (the guard checks
that the cut mapping is non-empty, not that any fill exists) — refuting
the claim that a marker appears only when at least one fill exists. -/
theorem C7_counterexample :
    ((view ⟨"v", [0, 1], [⟨"A", [0, 1]⟩], some (some 0), none⟩ none ⟨[], 0⟩ [1, 0]
        [("Z", [1, 1])]).2.fills = []) ∧
    ((view ⟨"v", [0, 1], [⟨"A", [0, 1]⟩], some (some 0), none⟩ none ⟨[], 0⟩ [1, 0]
        [("Z", [1, 1])]).2.marker = some ⟨0, 1⟩) := by
  refine ⟨rfl, ?_⟩
  rw [view_marker_eq ⟨"v", [0, 1], [⟨"A", [0, 1]⟩], some (some 0), none⟩ none ⟨[], 0⟩
    [1, 0] [("Z", [1, 1])] 0 (by simp) (by norm_num [List.all_cons]) rfl]
  norm_num [interp, interpFrom, List.zip_cons_cons]

/-- C7 (amended): a marker is emitted only when a crisp value is available,
the cut mapping is non-empty and the aggregate curve is not all zeros; the
guard inspects the cut mapping rather than the fills, so when every cut
label is a stored display-curve label a marker implies at least one fill,
but a cut of only unknown labels can yield a marker with no fills; an
absent crisp value or an empty cut mapping yields no marker and no error. -/
theorem C7_marker_conditions (v : FuzzyVar) (hl : Option String) (s : VisState)
    (out : List ℚ) (cut : List (String × List ℚ)) :
    (crispLookup v = none → (view v hl s out cut).2.marker = none)
    ∧ (cut = [] → (view v hl s out cut).2.marker = none)
    ∧ ((view v hl s out cut).2.marker ≠ none →
        cut ≠ [] ∧ out.all (fun y => y == 0) = false ∧ crispLookup v ≠ none)
    ∧ ((∀ e ∈ cut, e.1 ∈ (view v hl s out cut).1.plots.map Prod.fst) →
        (view v hl s out cut).2.marker ≠ none →
        (view v hl s out cut).2.fills ≠ []) := by
  have hnone : crispLookup v = none → (view v hl s out cut).2.marker = none := by
    intro hc
    simp [view, hc]
  have hempty : cut = [] → (view v hl s out cut).2.marker = none := by
    intro hc
    subst hc
    simp [view]
  have hmarker : (view v hl s out cut).2.marker ≠ none →
      cut ≠ [] ∧ out.all (fun y => y == 0) = false ∧ crispLookup v ≠ none := by
    intro hm
    by_cases h1 : cut = []
    · exact absurd (hempty h1) hm
    by_cases h2 : out.all (fun y => y == 0) = false
    · refine ⟨h1, h2, fun hc => hm (hnone hc)⟩
    · have h2' : out.all (fun y => y == 0) = true := by
        cases h : out.all (fun y => y == 0)
        · exact absurd h h2
        · rfl
      exact absurd (by simp [view, h2']) hm
  refine ⟨hnone, hempty, hmarker, ?_⟩
  intro hknown hm
  have hcut : cut ≠ [] := (hmarker hm).1
  obtain ⟨e, rest, hce⟩ := List.exists_cons_of_ne_nil hcut
  have hkey : e.1 ∈ (view v hl s out cut).1.plots.map Prod.fst :=
    hknown e (by rw [hce]; exact List.mem_cons_self _ _)
  have hsome : (dictGet e.1 cut).isSome = true := by
    rw [hce]
    simp [dictGet]
  have hmap : (view v hl s out cut).2.fills.map (fun f => f.label) =
      ((view v hl s out cut).1.plots.map Prod.fst).filter
        (fun l => (dictGet l cut).isSome) := by
    simp [view, initPlot, mkFills_map_label]
  intro hfe
  rw [hfe] at hmap
  have hmem : e.1 ∈ ((view v hl s out cut).1.plots.map Prod.fst).filter
      (fun l => (dictGet l cut).isSome) :=
    List.mem_filter.mpr ⟨hkey, by simpa using hsome⟩
  rw [← hmap] at hmem
  simp at hmem

/-- C7 (witness): the amended theorem applied at a concrete variable with
no role attribute: no crisp value, hence no marker. -/
theorem C7_marker_conditions_witness :
    (view ⟨"v", [0, 1], [⟨"A", [0, 1]⟩], none, none⟩ none ⟨[], 0⟩ [1, 0]
      [("A", [0, 1])]).2.marker = none :=
  (C7_marker_conditions ⟨"v", [0, 1], [⟨"A", [0, 1]⟩], none, none⟩ none ⟨[], 0⟩ [1, 0]
    [("A", [0, 1])]).1 rfl

/-- C8: every fill produced by `view` (on a freshly initialised visualizer
state) spans the universe with lower bound zero and upper bound the term's
cut curve, and its colour identity equals that of the display-curve
descriptor emitted for the same label in the same call. -/
theorem C8_fill_color_identity (v : FuzzyVar) (hl : Option String) (c0 : Nat)
    (out : List ℚ) (cut : List (String × List ℚ)) :
    ∀ f ∈ (view v hl ⟨[], c0⟩ out cut).2.fills,
      f.xs = v.univ ∧ f.lower = zerosLike v.univ ∧
      dictGet f.label cut = some f.upper ∧
      ∃ pd ∈ (view v hl ⟨[], c0⟩ out cut).2.curves,
        pd.label = f.label ∧ pd.color = f.color := by
  intro f hf
  have hf' : f ∈ mkFills v.univ cut (insertAll [] (mkPlots v.univ hl c0 v.terms)) := hf
  obtain ⟨⟨l, pd⟩, hp, hlab, hcol, hxs, hlow, hupp⟩ := mem_mkFills _ _ _ _ hf'
  refine ⟨hxs, hlow, by rw [hlab]; exact hupp, ?_⟩
  rcases mem_insertAll _ _ _ _ hp with habs | ⟨hin, hplab⟩
  · simp at habs
  · exact ⟨pd, hin, by rw [hplab]; exact hlab.symm, hcol.symm⟩

/-- C8 (witness): the theorem applied to the one concrete fill produced
for term `A`: it spans the universe from zero up to the cut curve and
shares colour index 0 with the display curve for `A`. -/
theorem C8_fill_color_identity_witness :
    (⟨"A", [0, 1], [0, 0], [0, 1], 0⟩ : FillDesc).xs =
        (⟨"v", [0, 1], [⟨"A", [0, 1]⟩], none, none⟩ : FuzzyVar).univ ∧
    (⟨"A", [0, 1], [0, 0], [0, 1], 0⟩ : FillDesc).lower =
        zerosLike (⟨"v", [0, 1], [⟨"A", [0, 1]⟩], none, none⟩ : FuzzyVar).univ ∧
    dictGet (⟨"A", [0, 1], [0, 0], [0, 1], 0⟩ : FillDesc).label [("A", [0, 1])] =
        some (⟨"A", [0, 1], [0, 0], [0, 1], 0⟩ : FillDesc).upper ∧
    ∃ pd ∈ (view ⟨"v", [0, 1], [⟨"A", [0, 1]⟩], none, none⟩ none ⟨[], 0⟩ [0, 1]
        [("A", [0, 1])]).2.curves,
      pd.label = (⟨"A", [0, 1], [0, 0], [0, 1], 0⟩ : FillDesc).label ∧
      pd.color = (⟨"A", [0, 1], [0, 0], [0, 1], 0⟩ : FillDesc).color :=
  C8_fill_color_identity ⟨"v", [0, 1], [⟨"A", [0, 1]⟩], none, none⟩ none 0 [0, 1]
    [("A", [0, 1])] ⟨"A", [0, 1], [0, 0], [0, 1], 0⟩ (by decide)

/-- C9: repeating `view` on the same visualizer state with identical
inputs yields the same derived values — the same curve geometry (label,
points, width), the same fill geometry (label, x-range, bounds) and the
same marker; the plots cache and the advancing colour cycle affect only
colour identities. -/
theorem C9_repeat_view (v : FuzzyVar) (hl : Option String) (s0 : VisState)
    (out : List ℚ) (cut : List (String × List ℚ)) :
    ((view v hl s0 out cut).2.curves.map curveGeom =
      (view v hl (view v hl s0 out cut).1 out cut).2.curves.map curveGeom)
    ∧ ((view v hl s0 out cut).2.fills.map fillGeom =
      (view v hl (view v hl s0 out cut).1 out cut).2.fills.map fillGeom)
    ∧ ((view v hl s0 out cut).2.marker =
      (view v hl (view v hl s0 out cut).1 out cut).2.marker) := by
  refine ⟨?_, ?_, rfl⟩
  · exact mkPlots_map_curveGeom v.univ hl s0.nextColor (s0.nextColor + v.terms.length)
      v.terms
  · rw [show (view v hl s0 out cut).2.fills =
        mkFills v.univ cut (insertAll s0.plots (mkPlots v.univ hl s0.nextColor v.terms))
        from rfl,
      show (view v hl (view v hl s0 out cut).1 out cut).2.fills =
        mkFills v.univ cut
          (insertAll (insertAll s0.plots (mkPlots v.univ hl s0.nextColor v.terms))
            (mkPlots v.univ hl (s0.nextColor + v.terms.length) v.terms))
        from rfl]
    simp only [mkFills_map_fillGeom, insertAll_keys, mkPlots_map_label,
      keysAfterInsert_idem]

/-- C10: when a variable exposes both the `input` and the `output`
attribute, the crisp value is taken from the input lookup alone — the
output value is never consulted, and the whole render result is unchanged
under any value of the `output` attribute. -/
theorem C10_input_precedence (v : FuzzyVar) (hl : Option String) (s : VisState)
    (out : List ℚ) (cut : List (String × List ℚ)) (iv : Option ℚ)
    (h : v.inputAttr = some iv) :
    crispLookup v = iv ∧
    ∀ o, view { v with outputAttr := o } hl s out cut = view v hl s out cut := by
  constructor
  · simp [crispLookup, h]
  · intro o
    obtain ⟨lb, u, ts, ia, oa⟩ := v
    have h' : ia = some iv := h
    subst h'
    rfl

/-- C10 (witness): the theorem applied at a variable carrying both an
input value 1 and an output value 2: the crisp lookup returns the input
value, and removing the output attribute does not change the render. -/
theorem C10_input_precedence_witness :
    crispLookup ⟨"v", [0, 1], [⟨"A", [0, 1]⟩], some (some 1), some (some 2)⟩ = some 1 ∧
    view ⟨"v", [0, 1], [⟨"A", [0, 1]⟩], some (some 1), none⟩ none ⟨[], 0⟩ [0, 1]
        [("A", [0, 1])] =
      view ⟨"v", [0, 1], [⟨"A", [0, 1]⟩], some (some 1), some (some 2)⟩ none ⟨[], 0⟩
        [0, 1] [("A", [0, 1])] :=
  ⟨(C10_input_precedence ⟨"v", [0, 1], [⟨"A", [0, 1]⟩], some (some 1), some (some 2)⟩
      none ⟨[], 0⟩ [0, 1] [("A", [0, 1])] (some 1) rfl).1,
    (C10_input_precedence ⟨"v", [0, 1], [⟨"A", [0, 1]⟩], some (some 1), some (some 2)⟩
      none ⟨[], 0⟩ [0, 1] [("A", [0, 1])] (some 1) rfl).2 none⟩

end SkFuzzy
